import Mathlib

/-!
Verification of the columnar data container in `src/data/List.ts`.

The embedding models JS numbers that flow through the store as an inductive
`Val` (a NaN marker, signed infinities, and finite values as integers — the
operations the claims concern never divide, so exact integers are enough).
The store state `LState` carries the fields of the `List` class that the
verified operations read or write: chunked per-dimension storage, the raw and
view extent caches, the optional index view `_indices`, the logical and raw
counts, and the identity bookkeeping.  JS objects used as string-keyed maps
are embedded as association lists, and sparse JS arrays as lists of `Option`s.
An out-of-bounds read of a chunk slot yields JS `undefined`; every consumer in
the modelled code paths treats `undefined` exactly like NaN (comparisons are
false, `isNaN` is true), so such reads are embedded as the `nan` default.
-/

namespace EList

/-- A JS number as seen by the store: NaN, ±Infinity, or a finite value. -/
inductive Val where
  | nan : Val
  | negInf : Val
  | num : Int → Val
  | posInf : Val
deriving DecidableEq, Repr

/-- JS `<` on numbers: any comparison involving NaN is false. -/
def vlt : Val → Val → Bool
  | .nan, _ => false
  | _, .nan => false
  | .negInf, .negInf => false
  | .negInf, _ => true
  | .num _, .negInf => false
  | .num a, .num b => a < b
  | .num _, .posInf => true
  | .posInf, _ => false

/-- JS `<=` on numbers: any comparison involving NaN is false. -/
def vle : Val → Val → Bool
  | .nan, _ => false
  | _, .nan => false
  | .negInf, _ => true
  | .num _, .negInf => false
  | .num a, .num b => a ≤ b
  | .num _, .posInf => true
  | .posInf, .posInf => true
  | .posInf, _ => false

/-- JS `isNaN` restricted to numbers. -/
def isNaNv : Val → Bool
  | .nan => true
  | _ => false

/-- JS `+` on numbers (IEEE behaviour on the special values). -/
def vadd : Val → Val → Val
  | .nan, _ => .nan
  | _, .nan => .nan
  | .posInf, .negInf => .nan
  | .negInf, .posInf => .nan
  | .posInf, _ => .posInf
  | _, .posInf => .posInf
  | .negInf, _ => .negInf
  | _, .negInf => .negInf
  | .num a, .num b => .num (a + b)

/-- Lookup in a JS object used as a string-keyed map (`obj[key]`). -/
def alGet {α : Type} (k : String) : List (String × α) → Option α
  | [] => none
  | p :: rest => if p.1 = k then some p.2 else alGet k rest

/-- Update in a JS object used as a string-keyed map (`obj[key] = v`). -/
def alSet {α : Type} (k : String) (v : α) : List (String × α) → List (String × α)
  | [] => [(k, v)]
  | p :: rest => if p.1 = k then (k, v) :: rest else p :: alSet k v rest

/-- One chunk of one dimension's backing buffer. -/
abbrev Chunk := List Val

/--
The fields of the `List` class that the verified operations touch.
`indices` is `_indices` (`none` = identity mode; the raw-index translation
function `getRawIndex` is `getRawIndexWithIndices` exactly when `_indices` is
set, since every modelled operation ends with
`this.getRawIndex = this._indices ? getRawIndexWithIndices : getRawIndexWithoutIndices`).
`idList` is the sparse `_idList` array, `idDimIdx` is `_idDimIdx`,
`ordinalCats` maps a dimension name to its `ordinalMeta.categories`.
-/
structure LState where
  chunkSize : Nat
  chunkCount : Nat
  dimensions : List String
  storage : List (String × List Chunk)
  rawExtent : List (String × (Val × Val))
  extent : List (String × (Val × Val))
  indices : Option (List Nat)
  count : Nat
  rawCount : Nat
  idList : List (Option String)
  idDimIdx : Option Nat
  ordinalCats : List (String × List String)
deriving DecidableEq, Repr

/-- Reads `this._storage[dim]`, with a missing dimension read as an empty chunk list. -/
def dimStoreOf (s : LState) (dim : String) : List Chunk :=
  (alGet dim s.storage).getD []

/--
Embeds `getRawIndexWithoutIndices` / `getRawIndexWithIndices` restricted to a
logical position that is a valid array index; callers below only use it for
`0 <= i` (the `-1` branch of the indexed variant is kept in `getRawIndexI`).
-/
def rawOfN (s : LState) (i : Nat) : Nat :=
  match s.indices with
  | none => i
  | some arr => arr.getD i 0

/-- The full `getRawIndex` function table entry, including the `-1` sentinel. -/
def getRawIndexI (s : LState) (idx : Int) : Int :=
  match s.indices with
  | none => idx
  | some arr =>
      if 0 ≤ idx ∧ idx < (s.count : Int) then (arr.getD idx.toNat 0 : Nat) else -1

/-- Embeds `_getFast(dim, rawIdx)`: unchecked chunked read.  Out-of-bounds reads give
JS `undefined`, embedded as `nan` (behaviourally identical in every use). -/
def getFast (s : LState) (dim : String) (rawIdx : Nat) : Val :=
  ((dimStoreOf s dim).getD (rawIdx / s.chunkSize) []).getD (rawIdx % s.chunkSize) .nan

/-- Embeds `get(dim, idx)`: NaN when the logical index is out of `[0, _count)` or the
dimension is absent; otherwise a chunked read at the translated raw index. -/
def get (s : LState) (dim : String) (idx : Int) : Val :=
  if 0 ≤ idx ∧ idx < (s.count : Int) then
    match alGet dim s.storage with
    | none => .nan
    | some dimStore =>
        let raw := rawOfN s idx.toNat
        (dimStore.getD (raw / s.chunkSize) []).getD (raw % s.chunkSize) .nan
  else .nan

/-- Embeds `getByRawIndex(dim, rawIdx)`: NaN when the raw index is out of
`[0, _rawCount)` or the dimension is absent. -/
def getByRawIndex (s : LState) (dim : String) (rawIdx : Int) : Val :=
  if 0 ≤ rawIdx ∧ rawIdx < (s.rawCount : Int) then
    match alGet dim s.storage with
    | none => .nan
    | some dimStore =>
        (dimStore.getD (rawIdx.toNat / s.chunkSize) []).getD (rawIdx.toNat % s.chunkSize) .nan
  else .nan

/-- The raw-position sequence of the current logical view, in logical order. -/
def viewSeq (s : LState) : List Nat :=
  (List.range s.count).map (fun i => rawOfN s i)

/-!  ## filterSelf  -/

/--
One predicate evaluation of `filterSelf` at logical position `i`.
The callback is modelled as `pred : List Val → Nat → Bool` receiving the list
of dimension-value arguments followed by the logical index.  Mirrors the
source exactly: with no dimensions the callback gets only `i`; with one
dimension it gets `_getFast(dim0, rawIdx)`; with two or more dimensions the
loop `for (; k < dimSize; k++) value[k] = this._getFast(dim0, rawIdx)` fills
every slot from `dim0` (the first named dimension). -/
def filterKeep (s : LState) (dimNames : List String)
    (pred : List Val → Nat → Bool) (i : Nat) : Bool :=
  let rawIdx := rawOfN s i
  match dimNames with
  | [] => pred [] i
  | [dim0] => pred [getFast s dim0 rawIdx] i
  | dim0 :: _ :: _ => pred (dimNames.map (fun _ => getFast s dim0 rawIdx)) i

/--
Embeds `filterSelf(dimNames, cb)`: iterates logical positions, keeps the raw indices
whose predicate evaluation is true, installs them as the new `_indices` only
when some row was dropped (`offset < count`), sets `_count` to the retained
count and resets the view extent cache.  The freshly allocated typed index
array has the old count as its length; slots past `offset` stay zero. -/
def filterSelf (s : LState) (dimNames : List String)
    (pred : List Val → Nat → Bool) : LState :=
  if s.count = 0 then s
  else
    let keptIdx := (List.range s.count).filter (fun i => filterKeep s dimNames pred i)
    let newIndices := keptIdx.map (fun i => rawOfN s i)
    let offset := newIndices.length
    if offset < s.count then
      { s with indices := some (newIndices ++ List.replicate (s.count - offset) 0),
               count := offset, extent := [] }
    else
      { s with count := offset, extent := [] }

/-!  ## selectRange  -/

/-- The retention test of `selectRange`: `(val >= min && val <= max) || isNaN(val)`. -/
def rangeKeep (val mn mx : Val) : Bool :=
  (vle mn val && vle val mx) || isNaNv val

/--
The single-dimension chunk-wise fast path of `selectRange` (taken when no
index view is active): walks the chunks directly, keeping the running global
counter `idx` as the retained raw position.  Returns the retained list and
the final counter. -/
def fastSel1 (s : LState) (dim0 : String) (mn mx : Val) : List Nat × Nat :=
  (List.range s.chunkCount).foldl
    (fun acc k =>
      let chunkStorage := (dimStoreOf s dim0).getD k []
      let len := min (s.count - k * s.chunkSize) s.chunkSize
      (List.range len).foldl
        (fun acc2 i =>
          let val := chunkStorage.getD i .nan
          ((if rangeKeep val mn mx then acc2.1 ++ [acc2.2] else acc2.1), acc2.2 + 1))
        acc)
    ([], 0)

/-- The two-dimension chunk-wise fast path of `selectRange`. -/
def fastSel2 (s : LState) (dim0 dim1 : String) (mn mx mn2 mx2 : Val) : List Nat :=
  ((List.range s.chunkCount).foldl
    (fun acc k =>
      let chunkStorage := (dimStoreOf s dim0).getD k []
      let chunkStorage2 := (dimStoreOf s dim1).getD k []
      let len := min (s.count - k * s.chunkSize) s.chunkSize
      (List.range len).foldl
        (fun acc2 i =>
          let val := chunkStorage.getD i .nan
          let val2 := chunkStorage2.getD i .nan
          ((if rangeKeep val mn mx && rangeKeep val2 mn2 mx2
            then acc2.1 ++ [acc2.2] else acc2.1), acc2.2 + 1))
        acc)
    ([], 0)).1

/-- The generic single-dimension loop of `selectRange` (the `!quickFinished`,
`dimSize === 1` branch): per logical row, translate to a raw index and test. -/
def genericSel1 (s : LState) (dim0 : String) (mn mx : Val) : List Nat :=
  (List.range s.count).filterMap (fun i =>
    let rawIndex := rawOfN s i
    let val := getFast s dim0 rawIndex
    if rangeKeep val mn mx then some rawIndex else none)

/-- The generic multi-dimension loop of `selectRange`: keep unless some ranged
dimension's value is `< min` or `> max` (NaN fails both, so it is kept). -/
def genericSelN (s : LState) (range : List (String × (Val × Val))) : List Nat :=
  (List.range s.count).filterMap (fun i =>
    let rawIndex := rawOfN s i
    let keep := (range.map Prod.fst).all (fun dimk =>
      let val := getFast s dimk rawIndex
      let bounds := (alGet dimk range).getD (.nan, .nan)
      !(vlt val bounds.1 || vlt bounds.2 val))
    if keep then some (rawOfN s i) else none)

/--
Embeds `selectRange(range)`: early-returns on an empty store or an empty range
object; otherwise picks the chunk-wise fast path (1 or 2 dimensions, no index
view active) or the generic per-row loop, then installs the retained raw
positions exactly as `filterSelf` does. -/
def selectRange (s : LState) (range : List (String × (Val × Val))) : LState :=
  if s.count = 0 then s
  else
    let dimensions := range.map Prod.fst
    if dimensions.length = 0 then s
    else
      let dimSize := dimensions.length
      let originalCount := s.count
      let dim0 := dimensions.headD ("")
      let bounds0 := (alGet dim0 range).getD (.nan, .nan)
      let kept :=
        if s.indices.isNone ∧ dimSize = 1 then (fastSel1 s dim0 bounds0.1 bounds0.2).1
        else if s.indices.isNone ∧ dimSize = 2 then
          let dim1 := dimensions.getD 1 ("")
          let bounds1 := (alGet dim1 range).getD (.nan, .nan)
          fastSel2 s dim0 dim1 bounds0.1 bounds0.2 bounds1.1 bounds1.2
        else if dimSize = 1 then genericSel1 s dim0 bounds0.1 bounds0.2
        else genericSelN s range
      let offset := kept.length
      if offset < originalCount then
        { s with indices := some (kept ++ List.replicate (originalCount - offset) 0),
                 count := offset, extent := [] }
      else
        { s with count := offset, extent := [] }

/-!  ## Extents and sums  -/

/-- Embeds `getInitialExtent()`, the pair of positive and negative infinity. -/
def getInitialExtent : Val × Val := (.posInf, .negInf)

/-- One step of the running min/max update used by the extent scan:
`value < min && (min = value); value > max && (max = value)`. -/
def extentStep (mm : Val × Val) (value : Val) : Val × Val :=
  ((if vlt value mm.1 then value else mm.1), (if vlt mm.2 value then value else mm.2))

/--
Embeds `getDataExtent(dim)` on a concrete dimension name.  The second component of
the result is the next state (the scan branch writes the view extent cache).
The Bool records whether the returned pair is a freshly allocated array
(`.slice()` or a new literal) — `true` means caller-side mutation of the
returned pair cannot reach the cache; the scan branch returns the very array
it cached, hence `false`. -/
def getDataExtent (s : LState) (dim : String) : ((Val × Val) × Bool) × LState :=
  match alGet dim s.storage with
  | none => ((getInitialExtent, true), s)
  | some _ =>
      if s.indices.isNone then
        (((alGet dim s.rawExtent).getD getInitialExtent, true), s)
      else
        match alGet dim s.extent with
        | some dimExtent => ((dimExtent, true), s)
        | none =>
            let dimExtent := (List.range s.count).foldl
              (fun mm i => extentStep mm (getFast s dim (rawOfN s i))) getInitialExtent
            ((dimExtent, false), { s with extent := alSet dim dimExtent s.extent })

/-- Embeds `getSum(dim)`: 0 for an absent dimension, otherwise the loop
`if (!isNaN(value)) sum += value` over all logical positions. -/
def getSum (s : LState) (dim : String) : Val :=
  match alGet dim s.storage with
  | none => .num 0
  | some _ =>
      (List.range s.count).foldl
        (fun sum (i : Nat) =>
          let value := get s dim (i : Int)
          if !isNaNv value then vadd sum value else sum)
        (.num 0)

/-!  ## Reverse lookup  -/

/--
The binary-search loop of `indexOfRawIndex`, with an explicit fuel argument
(the loop interval shrinks strictly, so `_count + 1` fuel always suffices;
running out of fuel coincides with the loop-exit result `-1`). -/
def bsLoop (arr : List Nat) (rawIndex : Nat) : Nat → Int → Int → Int
  | 0, _, _ => -1
  | fuel + 1, left, right =>
      if left ≤ right then
        let mid := (left + right) / 2
        let v : Int := (arr.getD mid.toNat 0 : Nat)
        if v < (rawIndex : Int) then bsLoop arr rawIndex fuel (mid + 1) right
        else if (rawIndex : Int) < v then bsLoop arr rawIndex fuel left (mid - 1)
        else mid
      else -1

/--
Embeds `indexOfRawIndex(rawIndex)`: `-1` outside `[0, _rawCount)`; the raw index
itself in identity mode; otherwise the `indices[rawIndex] === rawIndex`
shortcut followed by binary search over the ascending index view. -/
def indexOfRawIndex (s : LState) (rawIndex : Int) : Int :=
  if (s.rawCount : Int) ≤ rawIndex ∨ rawIndex < 0 then -1
  else
    match s.indices with
    | none => rawIndex
    | some arr =>
        let shortcut :=
          match arr.get? rawIndex.toNat with
          | some v => decide (v < s.count) && decide ((v : Int) = rawIndex)
          | none => false
        if shortcut then rawIndex
        else bsLoop arr rawIndex.toNat (s.count + 1) 0 ((s.count : Int) - 1)

/-!  ## Identity  -/

/-- The module constant ID_PREFIX: the letter e followed by two NUL bytes. -/
def idPref : String := "e\x00\x00"

/-- A value returned by an identity lookup: either a stored/derived string or
a numeric store value returned as-is (the JS code does not stringify it). -/
inductive IdVal where
  | str : String → IdVal
  | num : Val → IdVal
deriving DecidableEq, Repr

/-- Embeds `getRawValueFromStore(list, dimIndex, rawIndex)`: chunked read through the
dimension named by `dimensions[dimIndex]`, decoded through the dimension's
ordinal category table when one is present.  `none` is JS `undefined`
(also the result for a negative raw index, whose chunk lookup misses). -/
def getRawValueFromStore (s : LState) (dimIndex : Option Nat) (rawIndex : Int) :
    Option IdVal :=
  match dimIndex with
  | none => none
  | some di =>
      match s.dimensions.get? di with
      | none => none
      | some dim =>
          if 0 ≤ rawIndex then
            match (dimStoreOf s dim).get? (rawIndex.toNat / s.chunkSize) with
            | none => none
            | some chunk =>
                let val := chunk.getD (rawIndex.toNat % s.chunkSize) .nan
                match alGet dim s.ordinalCats with
                | some cats =>
                    if cats.length ≠ 0 then
                      match val with
                      | .num code =>
                          if 0 ≤ code then
                            match cats.get? code.toNat with
                            | some c => some (.str c)
                            | none => none
                          else none
                      | _ => none
                    else some (.num val)
                | none => some (.num val)
          else none

/-- The module-level `getId(list, rawIndex)` helper: explicit `_idList` entry,
else the id-dimension's stored value, else `ID_PREFIX + rawIndex`. -/
def getIdRaw (s : LState) (rawIndex : Int) : IdVal :=
  match (if 0 ≤ rawIndex then s.idList.getD rawIndex.toNat none else none) with
  | some id => .str id
  | none =>
      match getRawValueFromStore s s.idDimIdx rawIndex with
      | some v => v
      | none => .str (idPref ++ toString rawIndex)

/-- The method `getId(idx)` = `getId(this, this.getRawIndex(idx))`. -/
def getIdLog (s : LState) (idx : Int) : IdVal :=
  getIdRaw s (getRawIndexI s idx)

/-!  ## Ingestion identity assignment  -/

/-- The id built for a derived name whose per-name occurrence counter is `c`:
the name itself when the counter is 0, otherwise the name with the literal
suffix `__ec__` and the counter appended. -/
def mkDupId (name : String) (c : Nat) : String :=
  if 0 < c then name ++ "__ec__" ++ toString c else name

/--
The id-assignment block of `_initDataFromProvider` (the non-`pure` branch),
run over the ingested rows in raw order.  Each row is abstracted to the pair
(explicit `dataItem.id` if any, derived name if any) — exactly the two values
the block reads after the name-derivation step above it.  The accumulator is
`nameRepeatCount`; a row with an explicit id stores it untouched; a row with
only a name stores `mkDupId` of the current counter and bumps the counter;
a row with neither leaves its `_idList` slot unset. -/
def assignIdsGo : List (String × Nat) → List (Option String × Option String) →
    List (Option String)
  | _, [] => []
  | counts, (some id, _) :: rest => some id :: assignIdsGo counts rest
  | counts, (none, none) :: rest => none :: assignIdsGo counts rest
  | counts, (none, some name) :: rest =>
      let c := (alGet name counts).getD 0
      some (mkDupId name c) :: assignIdsGo (alSet name (c + 1) counts) rest

/-- Id assignment over a whole ingestion, starting from the empty
`nameRepeatCount` (reset at the top of `_initDataFromProvider`). -/
def assignIds (rows : List (Option String × Option String)) : List (Option String) :=
  assignIdsGo [] rows

/-- The number of earlier rows that entered the duplicate-counter branch with
the same name: no explicit id and the same derived name. -/
def occCount (rows : List (Option String × Option String)) (j : Nat) (n : String) : Nat :=
  ((rows.take j).filter (fun r => decide (r.1 = none ∧ r.2 = some n))).length

/-!  ## Association-list lemmas  -/

lemma alGet_alSet_self {α : Type} (k : String) (v : α) (l : List (String × α)) :
    alGet k (alSet k v l) = some v := by
  induction l with
  | nil => simp [alGet, alSet]
  | cons hd tl ih =>
      by_cases h : hd.1 = k
      · simp [alGet, alSet, h]
      · simpa [alGet, alSet, h] using ih

lemma alGet_alSet_ne {α : Type} (k k' : String) (v : α) (l : List (String × α))
    (h : k' ≠ k) : alGet k' (alSet k v l) = alGet k' l := by
  have hkk : ¬ k = k' := fun hh => h hh.symm
  induction l with
  | nil => simp [alGet, alSet, hkk]
  | cons hd tl ih =>
      by_cases hk : hd.1 = k
      · have hk' : ¬ hd.1 = k' := by rw [hk]; exact hkk
        simp [alGet, alSet, hk, hkk, hk']
      · by_cases hk' : hd.1 = k'
        · simp [alGet, alSet, hk, hk', h]
        · simpa [alGet, alSet, hk, hk'] using ih

/-!  ## Field preservation of the view-transform operations  -/

lemma filterSelf_fields (s : LState) (dimNames : List String)
    (pred : List Val → Nat → Bool) :
    (filterSelf s dimNames pred).chunkSize = s.chunkSize
    ∧ (filterSelf s dimNames pred).chunkCount = s.chunkCount
    ∧ (filterSelf s dimNames pred).dimensions = s.dimensions
    ∧ (filterSelf s dimNames pred).storage = s.storage
    ∧ (filterSelf s dimNames pred).rawExtent = s.rawExtent
    ∧ (filterSelf s dimNames pred).rawCount = s.rawCount
    ∧ (filterSelf s dimNames pred).idList = s.idList
    ∧ (filterSelf s dimNames pred).idDimIdx = s.idDimIdx
    ∧ (filterSelf s dimNames pred).ordinalCats = s.ordinalCats := by
  unfold filterSelf
  dsimp only
  split
  · exact ⟨rfl, rfl, rfl, rfl, rfl, rfl, rfl, rfl, rfl⟩
  · split
    · exact ⟨rfl, rfl, rfl, rfl, rfl, rfl, rfl, rfl, rfl⟩
    · exact ⟨rfl, rfl, rfl, rfl, rfl, rfl, rfl, rfl, rfl⟩

lemma selectRange_fields (s : LState) (range : List (String × (Val × Val))) :
    (selectRange s range).chunkSize = s.chunkSize
    ∧ (selectRange s range).chunkCount = s.chunkCount
    ∧ (selectRange s range).dimensions = s.dimensions
    ∧ (selectRange s range).storage = s.storage
    ∧ (selectRange s range).rawExtent = s.rawExtent
    ∧ (selectRange s range).rawCount = s.rawCount
    ∧ (selectRange s range).idList = s.idList
    ∧ (selectRange s range).idDimIdx = s.idDimIdx
    ∧ (selectRange s range).ordinalCats = s.ordinalCats := by
  unfold selectRange
  dsimp only
  repeat' split
  all_goals exact ⟨rfl, rfl, rfl, rfl, rfl, rfl, rfl, rfl, rfl⟩

/-!  ## C1: what the filter predicate receives in the two-dimension case  -/

/-- A one-row store with two dimensions holding different values. -/
def c1St : LState := {
  chunkSize := 2, chunkCount := 1,
  dimensions := ["x", "y"],
  storage := [("x", [[.num 1]]), ("y", [[.num 2]])],
  rawExtent := [("x", (.num 1, .num 1)), ("y", (.num 2, .num 2))],
  extent := [], indices := none, count := 1, rawCount := 1,
  idList := [], idDimIdx := none, ordinalCats := [] }

/-- A predicate over two dimensions keeping a row iff its second
dimension-value argument equals the stored `y` value `2`. -/
def c1Pred : List Val → Nat → Bool :=
  fun vs _ => decide (vs.getD 1 .nan = .num 2)

/-- C1: the `dimSize >= 2` branch of `filterSelf` fills every predicate
argument slot from the FIRST named dimension (`value[k] = this._getFast(dim0,
rawIdx)` for every `k`), so a predicate over `["x","y"]` never sees the `y`
value: at raw position 0 the raw `y` value is `2`, a predicate asking for
second argument `2` would keep the row if it received `(x, y, i)` as the spec
states, yet the code evaluates it to `false` and drops the row. -/
theorem c1_filterSelf_passes_first_dim_twice :
    getFast c1St ("y") 0 = .num 2
    ∧ c1Pred [getFast c1St ("x") 0, getFast c1St ("y") 0] 0 = true
    ∧ filterKeep c1St ["x", "y"] c1Pred 0 = false
    ∧ (filterSelf c1St ["x", "y"] c1Pred).count = 0 := by decide

/-!  ## C4: duplicate-name id suffix  -/

lemma assignIdsGo_spec (rows : List (Option String × Option String)) :
    ∀ (counts : List (String × Nat)) (j : Nat) (n : String),
      rows.get? j = some (none, some n) →
      (assignIdsGo counts rows).get? j
        = some (some (mkDupId n ((alGet n counts).getD 0 + occCount rows j n))) := by
  induction rows with
  | nil => intro counts j n h; simp at h
  | cons row rest ih =>
      intro counts j n h
      obtain ⟨oid, onm⟩ := row
      cases j with
      | zero =>
          have hh : oid = none ∧ onm = some n := by
            have := h
            simp only [List.get?_cons_zero, Option.some.injEq, Prod.mk.injEq] at this
            exact this
          obtain ⟨h1, h2⟩ := hh
          subst h1; subst h2
          simp [assignIdsGo, occCount]
      | succ j =>
          have h' : rest.get? j = some (none, some n) := by simpa using h
          cases oid with
          | some id =>
              have hr := ih counts j n h'
              simpa [assignIdsGo, occCount] using hr
          | none =>
              cases onm with
              | none =>
                  have hr := ih counts j n h'
                  simpa [assignIdsGo, occCount] using hr
              | some name =>
                  by_cases hn : name = n
                  · subst hn
                    have hr := ih (alSet name ((alGet name counts).getD 0 + 1) counts)
                      j name h'
                    rw [alGet_alSet_self] at hr
                    simpa [assignIdsGo, occCount, Nat.add_comm, Nat.add_assoc,
                      Nat.add_left_comm] using hr
                  · have hr := ih (alSet name ((alGet name counts).getD 0 + 1) counts)
                      j n h'
                    rw [alGet_alSet_ne name n _ _ (fun hh => hn hh.symm)] at hr
                    simpa [assignIdsGo, occCount, hn] using hr

/-- C4 (amended): during ingestion, a row with no explicit id but a
derived name is assigned the name itself on the first occurrence of that name
and `name + "__ec__" + k` on the k-th later occurrence, where the occurrence
count includes exactly the earlier id-less rows with the same derived name. -/
theorem c4_id_of_derived_name (rows : List (Option String × Option String))
    (j : Nat) (n : String) (h : rows.get? j = some (none, some n)) :
    (assignIds rows).get? j = some (some (mkDupId n (occCount rows j n))) := by
  have hr := assignIdsGo_spec rows [] j n h
  simpa [assignIds, alGet] using hr

/-- Witness for C4: two id-less rows named `a`, then one named `b`, then a
third `a`; the third `a` row (index 3) gets `a__ec__2`. -/
theorem c4_id_of_derived_name_witness :
    (assignIds [(none, some ("a")), (none, some ("a")), (none, some ("b")),
      (none, some ("a"))]).get? 3 = some (some (mkDupId ("a") 2)) := by
  have h := c4_id_of_derived_name
    [(none, some ("a")), (none, some ("a")), (none, some ("b")), (none, some ("a"))]
    3 ("a") (by decide)
  have hocc : occCount [((none : Option String), some ("a")), (none, some ("a")),
      (none, some ("b")), (none, some ("a"))] 3 ("a") = 2 := by decide
  rwa [hocc] at h

/-- C4 counterexample: the claimed suffix is `__dup__`; the code appends
`__ec__`: the second id-less row named `a` gets id `a__ec__1`, not
`a__dup__1`. -/
theorem c4_dup_suffix_counterexample :
    (assignIds [(none, some ("a")), (none, some ("a"))]).get? 1 = some (some ("a__ec__1"))
    ∧ (assignIds [(none, some ("a")), (none, some ("a"))]).get? 1 ≠ some (some ("a__dup__1")) := by
  constructor
  · rfl
  · decide

/-!  ## C5: out-of-range reads return NaN  -/

/-- C5: `get` returns NaN for a logical index outside `[0, count)` or a
dimension absent from storage, and `getByRawIndex` returns NaN for a raw
index outside `[0, rawCount)` or an absent dimension. -/
theorem c5_out_of_range_get_nan (s : LState) (dim : String) (idx rawIdx : Int) :
    ((¬ (0 ≤ idx ∧ idx < (s.count : Int)) ∨ alGet dim s.storage = none) →
      get s dim idx = .nan)
    ∧ ((¬ (0 ≤ rawIdx ∧ rawIdx < (s.rawCount : Int)) ∨ alGet dim s.storage = none) →
      getByRawIndex s dim rawIdx = .nan) := by
  constructor
  · rintro (h | h)
    · unfold get; rw [if_neg h]
    · unfold get
      split
      · rw [h]
      · rfl
  · rintro (h | h)
    · unfold getByRawIndex; rw [if_neg h]
    · unfold getByRawIndex
      split
      · rw [h]
      · rfl

/-- Witness for C5 on a concrete store: index 4 is out of range, dimension
`z` is absent, raw index `-1` is out of range. -/
theorem c5_out_of_range_get_nan_witness :
    get c1St ("x") 4 = .nan ∧ get c1St ("z") 0 = .nan ∧ getByRawIndex c1St ("x") (-1) = .nan := by
  refine ⟨(c5_out_of_range_get_nan c1St ("x") 4 0).1 (Or.inl (by decide)),
    (c5_out_of_range_get_nan c1St ("z") 0 0).1 (Or.inr (by decide)),
    (c5_out_of_range_get_nan c1St ("x") 0 (-1)).2 (Or.inl (by decide))⟩

/-!  ## C10: getSum skips NaN  -/

/-- Sum of a list of JS numbers, left to right from 0. -/
def listSum (l : List Val) : Val := l.foldl vadd (.num 0)

lemma sum_loop_eq_filter (f : Nat → Val) (l : List Nat) (acc : Val) :
    l.foldl (fun sum i => let value := f i;
      if !isNaNv value then vadd sum value else sum) acc
    = ((l.map f).filter (fun v => !isNaNv v)).foldl vadd acc := by
  induction l generalizing acc with
  | nil => rfl
  | cons a t ih =>
      simp only [List.foldl_cons, List.map_cons, List.filter_cons]
      cases h : isNaNv (f a) with
      | true => simp only [h, Bool.not_true, if_false, Bool.false_eq_true]; exact ih acc
      | false =>
          simp only [h, Bool.not_false, if_true, List.foldl_cons]
          exact ih (vadd acc (f a))

/-- C10: `getSum` returns 0 for an absent dimension; for a present
dimension it returns the sum of the non-NaN values of `get(dim, i)` over all
logical positions, NaN rows contributing nothing. -/
theorem c10_getSum_skips_nan (s : LState) (dim : String) :
    (alGet dim s.storage = none → getSum s dim = .num 0)
    ∧ (∀ st, alGet dim s.storage = some st →
        getSum s dim
          = listSum (((List.range s.count).map (fun i : Nat => get s dim (i : Int))).filter
              (fun v => !isNaNv v))) := by
  constructor
  · intro h; unfold getSum; rw [h]
  · intro st h
    unfold getSum
    split
    · rename_i heq
      rw [h] at heq
      cases heq
    · exact sum_loop_eq_filter (fun i => get s dim (i : Int)) (List.range s.count) (.num 0)

/-- A concrete store for witnesses: 4 rows, two dimensions, one NaN in each. -/
def sampleSt : LState := {
  chunkSize := 2, chunkCount := 2,
  dimensions := ["x", "y"],
  storage := [("x", [[.num 1, .num 2], [.nan, .num 30]]),
              ("y", [[.num 10, .nan], [.num 5, .num 7]])],
  rawExtent := [("x", (.num 1, .num 30)), ("y", (.num 5, .num 10))],
  extent := [], indices := none, count := 4, rawCount := 4,
  idList := [some ("a"), none, none, some ("d")],
  idDimIdx := none, ordinalCats := [] }

/-- Witness for C10: `x` holds `1, 2, NaN, 30`; the sum is `33`;
the absent dimension `z` sums to 0. -/
theorem c10_getSum_skips_nan_witness :
    getSum sampleSt ("x")
      = listSum (((List.range sampleSt.count).map
            (fun i : Nat => get sampleSt ("x") (i : Int))).filter
          (fun v => !isNaNv v))
    ∧ getSum sampleSt ("z") = .num 0
    ∧ getSum sampleSt ("x") = .num 33 := by
  refine ⟨(c10_getSum_skips_nan sampleSt ("x")).2 [[.num 1, .num 2], [.nan, .num 30]] (by decide),
    (c10_getSum_skips_nan sampleSt ("z")).1 (by decide), by decide⟩

/-!  ## C8: what filtering does and does not touch  -/

/-- A store whose logical count is already 0 but whose view extent cache is
non-empty (a `getDataExtent` call on an empty filtered view caches an
extent). -/
def c8St : LState := {
  chunkSize := 1, chunkCount := 1,
  dimensions := ["x"],
  storage := [("x", [[.num 1]])],
  rawExtent := [("x", (.num 1, .num 1))],
  extent := [("x", (.posInf, .negInf))],
  indices := some [0], count := 0, rawCount := 1,
  idList := [], idDimIdx := none, ordinalCats := [] }

/-- C8 counterexample: a `filterSelf` call on a store with `_count == 0`
early-returns (`if (!this._count) return`) without resetting the view extent
cache, so the claimed reset of the view extent cache fails for this call. -/
theorem c8_extent_not_reset_counterexample :
    (filterSelf c8St ["x"] (fun _ _ => true)).extent ≠ [] := by decide

/-- C8 (amended): every `filterSelf` and `selectRange` call leaves every
chunk of raw storage and every dimension's raw extent unchanged; the view
extent cache is reset for all dimensions unless the call early-returns
(current count 0, or `selectRange` with an empty range object), in which case
the whole state is untouched. -/
theorem c8_storage_untouched_extent_reset (s : LState) (dimNames : List String)
    (pred : List Val → Nat → Bool) (range : List (String × (Val × Val))) :
    (filterSelf s dimNames pred).storage = s.storage
    ∧ (filterSelf s dimNames pred).rawExtent = s.rawExtent
    ∧ (selectRange s range).storage = s.storage
    ∧ (selectRange s range).rawExtent = s.rawExtent
    ∧ (s.count ≠ 0 → (filterSelf s dimNames pred).extent = [])
    ∧ (s.count ≠ 0 → range ≠ [] → (selectRange s range).extent = []) := by
  refine ⟨(filterSelf_fields s dimNames pred).2.2.2.1,
    (filterSelf_fields s dimNames pred).2.2.2.2.1,
    (selectRange_fields s range).2.2.2.1,
    (selectRange_fields s range).2.2.2.2.1, ?_, ?_⟩
  · intro hc
    unfold filterSelf
    dsimp only
    rw [if_neg hc]
    split <;> rfl
  · intro hc hr
    unfold selectRange
    dsimp only
    have hlen : ¬ (List.map Prod.fst range).length = 0 := by
      simpa [List.length_eq_zero] using hr
    rw [if_neg hc, if_neg hlen]
    repeat' split
    all_goals rfl

/-- Witness for C8 (amended) at a concrete store and range call. -/
theorem c8_storage_untouched_extent_reset_witness :
    (selectRange sampleSt [("x", (.num 2, .num 40))]).storage = sampleSt.storage
    ∧ (selectRange sampleSt [("x", (.num 2, .num 40))]).extent = [] := by
  refine ⟨(c8_storage_untouched_extent_reset sampleSt [] (fun _ _ => true)
      [("x", (.num 2, .num 40))]).2.2.1,
    (c8_storage_untouched_extent_reset sampleSt [] (fun _ _ => true)
      [("x", (.num 2, .num 40))]).2.2.2.2.2 (by decide) (by decide)⟩

/-!  ## C9: identity is keyed by raw position  -/

lemma getRawIndexI_of_lt (s : LState) (p : Nat) (hp : p < s.count) :
    getRawIndexI s (p : Int) = (rawOfN s p : Int) := by
  unfold getRawIndexI rawOfN
  cases s.indices with
  | none => rfl
  | some arr =>
      dsimp only
      rw [if_pos ⟨Int.ofNat_nonneg p, by exact_mod_cast hp⟩]
      simp

lemma getIdRaw_congr (s s' : LState)
    (h1 : s'.idList = s.idList) (h2 : s'.idDimIdx = s.idDimIdx)
    (h3 : s'.dimensions = s.dimensions) (h4 : s'.storage = s.storage)
    (h5 : s'.chunkSize = s.chunkSize) (h6 : s'.ordinalCats = s.ordinalCats)
    (r : Int) : getIdRaw s' r = getIdRaw s r := by
  unfold getIdRaw getRawValueFromStore dimStoreOf
  rw [h1, h2, h3, h4, h5, h6]

/-- C9: a row visible both before and after a `filterSelf` or
`selectRange` call — same raw position, old logical position `p`, new logical
position `p'` — yields the same `getId` result at `p'` after the call as at
`p` before it: identity is resolved from the raw position and the id data,
none of which filtering modifies. -/
theorem c9_getId_stable_under_filtering (s : LState) (dimNames : List String)
    (pred : List Val → Nat → Bool) (range : List (String × (Val × Val))) :
    (∀ p p' : Nat, p < s.count → p' < (filterSelf s dimNames pred).count →
        rawOfN s p = rawOfN (filterSelf s dimNames pred) p' →
        getIdLog (filterSelf s dimNames pred) (p' : Int) = getIdLog s (p : Int))
    ∧ (∀ p p' : Nat, p < s.count → p' < (selectRange s range).count →
        rawOfN s p = rawOfN (selectRange s range) p' →
        getIdLog (selectRange s range) (p' : Int) = getIdLog s (p : Int)) := by
  constructor
  · intro p p' hp hp' hraw
    have hf := filterSelf_fields s dimNames pred
    unfold getIdLog
    rw [getRawIndexI_of_lt s p hp, getRawIndexI_of_lt _ p' hp', ← hraw]
    exact getIdRaw_congr s _ hf.2.2.2.2.2.2.1 hf.2.2.2.2.2.2.2.1 hf.2.2.1
      hf.2.2.2.1 hf.1 hf.2.2.2.2.2.2.2.2 _
  · intro p p' hp hp' hraw
    have hf := selectRange_fields s range
    unfold getIdLog
    rw [getRawIndexI_of_lt s p hp, getRawIndexI_of_lt _ p' hp', ← hraw]
    exact getIdRaw_congr s _ hf.2.2.2.2.2.2.1 hf.2.2.2.2.2.2.2.1 hf.2.2.1
      hf.2.2.2.1 hf.1 hf.2.2.2.2.2.2.2.2 _

/-- The witness predicate for C9: keep rows whose first dimension value is
at least 2. -/
def c9WPred : List Val → Nat → Bool := fun vs _ => vle (.num 2) (vs.getD 0 .nan)

/-- Witness for C9: filtering `sampleSt` on `x >= 2` keeps raw rows 1 and 3;
the row at old logical position 3 lands at new logical position 1 and keeps
its id (`"d"`). -/
theorem c9_getId_stable_under_filtering_witness :
    getIdLog (filterSelf sampleSt ["x"] c9WPred) (1 : Int) = getIdLog sampleSt (3 : Int) :=
  (c9_getId_stable_under_filtering sampleSt ["x"] c9WPred []).1 3 1
    (by decide) (by decide) (by decide)

/-!  ## C3: the index view installed by filterSelf  -/

lemma map_getD_range {α : Type} (l : List α) (d : α) :
    (List.range l.length).map (fun i => l.getD i d) = l := by
  apply List.ext_getElem
  · simp
  · intro n h1 h2
    have hn : n < (List.range l.length).length := by simpa using h2
    simp only [List.getElem_map, List.getElem_range]
    exact List.getD_eq_getElem l d h2

lemma map_getD_range_append {α : Type} (l pad : List α) (d : α) :
    (List.range l.length).map (fun i => (l ++ pad).getD i d) = l := by
  have h1 : ∀ i ∈ List.range l.length, (l ++ pad).getD i d = l.getD i d := by
    intro i hi
    exact List.getD_append l pad d i (by simpa using hi)
  rw [List.map_congr_left h1]
  exact map_getD_range l d

/-- C3: after `filterSelf`, the new count equals the number of retained
logical rows; if every row was retained no new index view is installed (the
previous translation mode continues); otherwise an index view is installed
(`isSome`, so raw-index translation switches to the via-index variant), the
new view lists exactly the retained raw positions, and — assuming the
previous view was ascending, as the installed-view invariant guarantees — the
new view is an ascending, order-preserving subsequence of the previous
view. -/
theorem c3_filterSelf_view_update (s : LState) (dimNames : List String)
    (pred : List Val → Nat → Bool)
    (hasc : (viewSeq s).Pairwise (· < ·)) :
    ((filterSelf s dimNames pred).count
        = ((List.range s.count).filter (fun i => filterKeep s dimNames pred i)).length)
    ∧ (((List.range s.count).filter (fun i => filterKeep s dimNames pred i)).length
          = s.count →
        (filterSelf s dimNames pred).indices = s.indices)
    ∧ (((List.range s.count).filter (fun i => filterKeep s dimNames pred i)).length
          < s.count →
        ((filterSelf s dimNames pred).indices.isSome = true
          ∧ viewSeq (filterSelf s dimNames pred)
              = ((List.range s.count).filter (fun i => filterKeep s dimNames pred i)).map
                  (fun i => rawOfN s i)
          ∧ (viewSeq (filterSelf s dimNames pred)).Pairwise (· < ·)
          ∧ (viewSeq (filterSelf s dimNames pred)).Sublist (viewSeq s))) := by
  by_cases hc : s.count = 0
  · refine ⟨?_, ?_, ?_⟩
    · simp [filterSelf, hc]
    · intro _; simp [filterSelf, hc]
    · intro hlt; rw [hc] at hlt; exact absurd hlt (Nat.not_lt_zero _)
  · by_cases ho : ((List.range s.count).filter
        (fun i => filterKeep s dimNames pred i)).length < s.count
    · have hfs : filterSelf s dimNames pred
          = { s with
              indices := some
                (((List.range s.count).filter (fun i => filterKeep s dimNames pred i)).map
                    (fun i => rawOfN s i)
                  ++ List.replicate (s.count
                      - ((List.range s.count).filter
                          (fun i => filterKeep s dimNames pred i)).length) 0),
              count := ((List.range s.count).filter
                  (fun i => filterKeep s dimNames pred i)).length,
              extent := [] } := by
        unfold filterSelf
        dsimp only
        rw [if_neg hc, List.length_map, if_pos ho]
      have hsub : (((List.range s.count).filter (fun i => filterKeep s dimNames pred i)).map
            (fun i => rawOfN s i)).Sublist (viewSeq s) :=
        List.Sublist.map (fun i => rawOfN s i) (List.filter_sublist _)
      have hview : viewSeq (filterSelf s dimNames pred)
          = ((List.range s.count).filter (fun i => filterKeep s dimNames pred i)).map
              (fun i => rawOfN s i) := by
        rw [hfs]
        unfold viewSeq rawOfN
        rw [show (((List.range s.count).filter (fun i => filterKeep s dimNames pred i)).length)
            = (((List.range s.count).filter (fun i => filterKeep s dimNames pred i)).map
                (fun i => rawOfN s i)).length from (List.length_map _ _).symm]
        exact map_getD_range_append _ _ _
      refine ⟨by rw [hfs], ?_, ?_⟩
      · intro h; exact absurd h (Nat.ne_of_lt ho)
      · intro _
        refine ⟨by rw [hfs]; rfl, hview, ?_, ?_⟩
        · rw [hview]; exact List.Pairwise.sublist hsub hasc
        · rw [hview]; exact hsub
    · have hfs : filterSelf s dimNames pred
          = { s with
              count := ((List.range s.count).filter
                  (fun i => filterKeep s dimNames pred i)).length,
              extent := [] } := by
        unfold filterSelf
        dsimp only
        rw [if_neg hc, List.length_map, if_neg ho]
      refine ⟨by rw [hfs], ?_, ?_⟩
      · intro _; rw [hfs]
      · intro hlt; exact absurd hlt ho

/-- Witness for C3: filtering `sampleSt` on `x >= 2` retains logical rows 1
and 3; the installed view is `[1, 3]` plus zero padding, ascending. -/
theorem c3_filterSelf_view_update_witness :
    (filterSelf sampleSt ["x"] c9WPred).indices.isSome = true
    ∧ viewSeq (filterSelf sampleSt ["x"] c9WPred)
        = ((List.range sampleSt.count).filter
            (fun i => filterKeep sampleSt ["x"] c9WPred i)).map
            (fun i => rawOfN sampleSt i)
    ∧ (viewSeq (filterSelf sampleSt ["x"] c9WPred)).Pairwise (· < ·)
    ∧ (viewSeq (filterSelf sampleSt ["x"] c9WPred)).Sublist (viewSeq sampleSt) :=
  (c3_filterSelf_view_update sampleSt ["x"] c9WPred (by decide)).2.2 (by decide)

/-!  ## C6: getDataExtent branch behaviour  -/

/-- The values of one dimension over the current logical view, in logical
order. -/
def viewVals (s : LState) (dim : String) : List Val :=
  (List.range s.count).map (fun i => getFast s dim (rawOfN s i))

/-- C6: for a dimension present in storage, with no index view active,
`getDataExtent` returns the raw extent entry and leaves the state unchanged
(as a fresh copy — `.slice()`); with an index view active and a cached view
extent, it returns the cached pair as a fresh copy (mutating the returned
pair cannot change later results) and leaves the state unchanged; otherwise
it computes the min/max of one linear scan over the current logical view,
stores it in the view extent cache, and returns that very pair. -/
theorem c6_getDataExtent_branches (s : LState) (dim : String) (e : Val × Val)
    (hst : (alGet dim s.storage).isSome = true) :
    (s.indices = none → alGet dim s.rawExtent = some e →
        getDataExtent s dim = ((e, true), s))
    ∧ (s.indices.isSome = true → alGet dim s.extent = some e →
        getDataExtent s dim = ((e, true), s))
    ∧ (s.indices.isSome = true → alGet dim s.extent = none →
        getDataExtent s dim
          = (((viewVals s dim).foldl extentStep getInitialExtent, false),
              { s with
                extent := alSet dim ((viewVals s dim).foldl extentStep getInitialExtent)
                  s.extent })
          ∧ alGet dim (getDataExtent s dim).2.extent
              = some ((viewVals s dim).foldl extentStep getInitialExtent)) := by
  have hfold : (List.range s.count).foldl
      (fun mm i => extentStep mm (getFast s dim (rawOfN s i))) getInitialExtent
      = (viewVals s dim).foldl extentStep getInitialExtent := by
    unfold viewVals
    rw [List.foldl_map]
  unfold getDataExtent
  split
  · rename_i heq
    rw [heq] at hst
    simp at hst
  · refine ⟨?_, ?_, ?_⟩
    · intro hni hraw
      simp [hni, hraw]
    · intro hsi hext
      obtain ⟨arr, harr⟩ := Option.isSome_iff_exists.mp hsi
      simp [harr, hext]
    · intro hsi hext
      obtain ⟨arr, harr⟩ := Option.isSome_iff_exists.mp hsi
      simp only [harr, Option.isNone_some, Bool.false_eq_true, if_false, hext, hfold]
      exact ⟨by trivial, alGet_alSet_self dim _ s.extent⟩

/-- A filtered copy of `sampleSt` (view `[1, 3]`, count 2) with an empty view
extent cache. -/
def c6St : LState := { sampleSt with indices := some [1, 3, 0, 0], count := 2 }

/-- Witness for C6, scan branch: on the filtered store the `x` extent is
computed from the view values `[2, 30]` and cached. -/
theorem c6_getDataExtent_branches_witness :
    getDataExtent c6St ("x")
      = (((viewVals c6St ("x")).foldl extentStep getInitialExtent, false),
          { c6St with
            extent := alSet ("x") ((viewVals c6St ("x")).foldl extentStep getInitialExtent)
              c6St.extent })
    ∧ alGet ("x") (getDataExtent c6St ("x")).2.extent
        = some ((viewVals c6St ("x")).foldl extentStep getInitialExtent) :=
  (c6_getDataExtent_branches c6St ("x") getInitialExtent (by decide)).2.2
    (by decide) (by decide)

/-!  ## C2: fast-path / generic-path equivalence of selectRange  -/

lemma selInnerFold (chunk : List Val) (mn mx : Val) :
    ∀ (len : Nat) (A : List Nat) (idx0 : Nat),
      (List.range len).foldl
        (fun (acc2 : List Nat × Nat) i =>
          ((if rangeKeep (chunk.getD i .nan) mn mx then acc2.1 ++ [acc2.2] else acc2.1),
            acc2.2 + 1))
        (A, idx0)
      = (A ++ (List.range len).filterMap (fun i =>
            if rangeKeep (chunk.getD i .nan) mn mx then some (idx0 + i) else none),
          idx0 + len) := by
  intro len
  induction len with
  | zero => intro A idx0; simp
  | succ n ih =>
      intro A idx0
      rw [List.range_succ, List.foldl_append, List.filterMap_append, ih]
      simp only [List.foldl_cons, List.foldl_nil, List.filterMap_cons, List.filterMap_nil]
      by_cases h : rangeKeep (chunk.getD n .nan) mn mx
      · rw [h]
        simp [List.append_assoc, Nat.add_assoc]
      · simp only [Bool.not_eq_true] at h
        rw [h]
        simp [Nat.add_assoc]

/-- The single-dimension fast path enumerates exactly the raw positions
`0 .. min(count, chunkCount*chunkSize)` and keeps those passing the range
test on the chunked read, which for covered positions is `_getFast`. -/
lemma fastSel1_spec (s : LState) (dim0 : String) (mn mx : Val) (hcs : 0 < s.chunkSize) :
    fastSel1 s dim0 mn mx
      = ((List.range (min s.count (s.chunkCount * s.chunkSize))).filterMap (fun idx =>
            if rangeKeep (getFast s dim0 idx) mn mx then some idx else none),
          min s.count (s.chunkCount * s.chunkSize)) := by
  unfold fastSel1
  dsimp only
  suffices H : ∀ K,
      (List.range K).foldl
        (fun acc k =>
          (List.range (min (s.count - k * s.chunkSize) s.chunkSize)).foldl
            (fun (acc2 : List Nat × Nat) i =>
              ((if rangeKeep (((dimStoreOf s dim0).getD k []).getD i .nan) mn mx
                then acc2.1 ++ [acc2.2] else acc2.1), acc2.2 + 1))
            acc)
        ([], 0)
      = ((List.range (min s.count (K * s.chunkSize))).filterMap (fun idx =>
            if rangeKeep (getFast s dim0 idx) mn mx then some idx else none),
          min s.count (K * s.chunkSize)) by
    exact H s.chunkCount
  intro K
  induction K with
  | zero => simp
  | succ k ih =>
      rw [List.range_succ, List.foldl_append]
      simp only [List.foldl_cons, List.foldl_nil]
      rw [ih, selInnerFold]
      have hm : min s.count (k * s.chunkSize)
            + min (s.count - k * s.chunkSize) s.chunkSize
          = min s.count ((k + 1) * s.chunkSize) := by
        rw [Nat.succ_mul]
        generalize k * s.chunkSize = a
        omega
      rw [Prod.mk.injEq]
      refine ⟨?_, hm⟩
      conv_rhs => rw [← hm]
      rw [List.range_add, List.filterMap_append, List.filterMap_map]
      congr 1
      apply List.filterMap_congr
      intro i hi
      simp only [Function.comp_apply]
      have hi' : i < min (s.count - k * s.chunkSize) s.chunkSize := by simpa using hi
      have hlt : k * s.chunkSize < s.count := by omega
      have hmk : min s.count (k * s.chunkSize) = k * s.chunkSize := by omega
      have hib : i < s.chunkSize := by omega
      have hv : getFast s dim0 (k * s.chunkSize + i)
          = ((dimStoreOf s dim0).getD k []).getD i .nan := by
        unfold getFast
        have h1 : (k * s.chunkSize + i) / s.chunkSize = k := by
          rw [Nat.add_comm, Nat.mul_comm, Nat.add_mul_div_left i k hcs,
            Nat.div_eq_of_lt hib, Nat.zero_add]
        have h2 : (k * s.chunkSize + i) % s.chunkSize = i := by
          rw [Nat.add_comm, Nat.add_mul_mod_self_right, Nat.mod_eq_of_lt hib]
        rw [h1, h2]
      rw [hmk, hv]

/-- C2: on a store with no active index view (and chunks covering the
logical count), the single-dimension chunk-wise fast path of `selectRange`
retains exactly the raw positions the generic per-row loop would retain, and
every row whose value in the ranged dimension is NaN is retained whatever the
bounds. -/
theorem c2_selectRange_fast_path_equiv (s : LState) (dim0 : String) (mn mx : Val)
    (hni : s.indices = none) (hcs : 0 < s.chunkSize)
    (hcov : s.count ≤ s.chunkCount * s.chunkSize) :
    (fastSel1 s dim0 mn mx).1 = genericSel1 s dim0 mn mx
    ∧ ∀ i, i < s.count → isNaNv (getFast s dim0 i) = true →
        i ∈ (fastSel1 s dim0 mn mx).1 := by
  have hmin : min s.count (s.chunkCount * s.chunkSize) = s.count := Nat.min_eq_left hcov
  have hfs := fastSel1_spec s dim0 mn mx hcs
  rw [hfs, hmin]
  constructor
  · unfold genericSel1
    apply List.filterMap_congr
    intro i hi
    simp [rawOfN, hni]
  · intro i hilt hnan
    dsimp only
    apply List.mem_filterMap.mpr
    refine ⟨i, List.mem_range.mpr hilt, ?_⟩
    rw [if_pos]
    simp [rangeKeep, hnan]

/-- Witness for C2 on `sampleSt` (`x = [1, 2, NaN, 30]`, range `[2, 40]`):
both paths retain `[1, 2, 3]`, and the NaN row (raw position 2) is kept. -/
theorem c2_selectRange_fast_path_equiv_witness :
    (fastSel1 sampleSt ("x") (.num 2) (.num 40)).1
        = genericSel1 sampleSt ("x") (.num 2) (.num 40)
    ∧ 2 ∈ (fastSel1 sampleSt ("x") (.num 2) (.num 40)).1 :=
  ⟨(c2_selectRange_fast_path_equiv sampleSt ("x") (.num 2) (.num 40) rfl
      (by decide) (by decide)).1,
    (c2_selectRange_fast_path_equiv sampleSt ("x") (.num 2) (.num 40) rfl
      (by decide) (by decide)).2 2 (by decide) (by decide)⟩

/-!  ## C7: reverse lookup by raw index  -/

lemma pairwise_take_getD_mono (arr : List Nat) (cnt : Nat) (hlen : cnt ≤ arr.length)
    (hasc : (arr.take cnt).Pairwise (· < ·)) :
    ∀ p q : Nat, p < q → q < cnt → arr.getD p 0 < arr.getD q 0 := by
  intro p q hpq hq
  have hp : p < cnt := Nat.lt_trans hpq hq
  have htl : (arr.take cnt).length = cnt := by
    rw [List.length_take]
    omega
  have hg := List.pairwise_iff_getElem.mp hasc p q (by omega) (by omega) hpq
  rw [List.getElem_take, List.getElem_take] at hg
  rw [List.getD_eq_getElem arr 0 (by omega), List.getD_eq_getElem arr 0 (by omega)]
  exact hg

lemma bsLoop_correct (arr : List Nat) (cnt target : Nat)
    (hmono : ∀ p q : Nat, p < q → q < cnt → arr.getD p 0 < arr.getD q 0) :
    ∀ (fuel : Nat) (left right : Int), 0 ≤ left → right < (cnt : Int) →
      right + 1 - left < (fuel : Int) →
      (∀ p : Nat, p < cnt → arr.getD p 0 = target →
        left ≤ (p : Int) ∧ (p : Int) ≤ right) →
      ((∃ p : Nat, p < cnt ∧ arr.getD p 0 = target
          ∧ bsLoop arr target fuel left right = (p : Int))
        ∨ ((∀ p : Nat, p < cnt → arr.getD p 0 ≠ target)
          ∧ bsLoop arr target fuel left right = -1)) := by
  intro fuel
  induction fuel with
  | zero =>
      intro left right h0 hrc hfuel hwin
      refine Or.inr ⟨?_, rfl⟩
      intro p hp hval
      have := hwin p hp hval
      omega
  | succ fuel ih =>
      intro left right h0 hrc hfuel hwin
      by_cases hlr : left ≤ right
      · have hL : ((left.toNat : Int)) = left := Int.toNat_of_nonneg h0
        have hR : ((right.toNat : Int)) = right := Int.toNat_of_nonneg (by omega)
        have hmidnat : (left + right) / 2 = (((left.toNat + right.toNat) / 2 : Nat) : Int) := by
          rw [Int.natCast_div]
          push_cast [hL, hR]
          rfl
        have hml : left ≤ (left + right) / 2 := by
          rw [hmidnat]
          omega
        have hmr : (left + right) / 2 ≤ right := by
          rw [hmidnat]
          omega
        have hmtn : ((left + right) / 2).toNat = (left.toNat + right.toNat) / 2 := by
          rw [hmidnat]
          exact Int.toNat_natCast _
        have hmcnt : ((left + right) / 2).toNat < cnt := by
          omega
        simp only [bsLoop, if_pos hlr]
        by_cases hv1 : (arr.getD ((left + right) / 2).toNat 0 : Int) < (target : Int)
        · rw [if_pos hv1]
          apply ih ((left + right) / 2 + 1) right (by omega) hrc (by omega)
          intro p hp hval
          obtain ⟨hl, hr⟩ := hwin p hp hval
          refine ⟨?_, hr⟩
          by_contra hcon
          have hple : (p : Int) ≤ (left + right) / 2 := by omega
          have hple' : p ≤ ((left + right) / 2).toNat := by omega
          rcases Nat.lt_or_ge p ((left + right) / 2).toNat with hplt | hpge
          · have := hmono p ((left + right) / 2).toNat hplt hmcnt
            omega
          · have hpeq : p = ((left + right) / 2).toNat := by omega
            rw [hpeq] at hval
            omega
        · rw [if_neg hv1]
          by_cases hv2 : (target : Int) < (arr.getD ((left + right) / 2).toNat 0 : Int)
          · rw [if_pos hv2]
            apply ih left ((left + right) / 2 - 1) h0 (by omega) (by omega)
            intro p hp hval
            obtain ⟨hl, hr⟩ := hwin p hp hval
            refine ⟨hl, ?_⟩
            by_contra hcon
            have hpge : ((left + right) / 2).toNat ≤ p := by omega
            rcases Nat.lt_or_ge ((left + right) / 2).toNat p with hplt | hple
            · have := hmono ((left + right) / 2).toNat p hplt hp
              omega
            · have hpeq : p = ((left + right) / 2).toNat := by omega
              rw [hpeq] at hval
              omega
          · rw [if_neg hv2]
            refine Or.inl ⟨((left + right) / 2).toNat, hmcnt, by omega, ?_⟩
            omega
      · simp only [bsLoop, if_neg hlr]
        refine Or.inr ⟨?_, by trivial⟩
        intro p hp hval
        have := hwin p hp hval
        omega

/-- C7: the function `indexOfRawIndex(r)` returns `-1` for `r` outside
`[0, rawCount)`; returns `r` itself when no index view is active; and with an
ascending index view of at least `count` entries returns the logical position
`p` with `indices[p] = r` when `r` occurs among the first `count` entries,
and `-1` otherwise. -/
theorem c7_indexOfRawIndex_spec (s : LState) (r : Int) :
    ((r < 0 ∨ (s.rawCount : Int) ≤ r) → indexOfRawIndex s r = -1)
    ∧ (0 ≤ r → r < (s.rawCount : Int) → s.indices = none → indexOfRawIndex s r = r)
    ∧ (∀ arr, 0 ≤ r → r < (s.rawCount : Int) → s.indices = some arr →
        s.count ≤ arr.length →
        (arr.take s.count).Pairwise (· < ·) →
        ((∃ p : Nat, p < s.count ∧ (arr.getD p 0 : Int) = r
            ∧ indexOfRawIndex s r = (p : Int))
          ∨ ((∀ p : Nat, p < s.count → (arr.getD p 0 : Int) ≠ r)
            ∧ indexOfRawIndex s r = -1))) := by
  refine ⟨?_, ?_, ?_⟩
  · intro h
    unfold indexOfRawIndex
    rw [if_pos (by omega)]
  · intro h1 h2 hni
    unfold indexOfRawIndex
    rw [if_neg (by omega), hni]
  · intro arr h1 h2 hsome hlen hasc
    have hmono := pairwise_take_getD_mono arr s.count hlen hasc
    unfold indexOfRawIndex
    rw [if_neg (by omega), hsome]
    dsimp only
    by_cases hsc : (match arr.get? r.toNat with
        | some v => decide (v < s.count) && decide ((v : Int) = r)
        | none => false) = true
    · rw [if_pos hsc]
      rcases hq : arr.get? r.toNat with _ | v
      · rw [hq] at hsc
        simp at hsc
      · rw [hq] at hsc
        simp only [Bool.and_eq_true, decide_eq_true_eq] at hsc
        obtain ⟨hvc, hvr⟩ := hsc
        refine Or.inl ⟨r.toNat, by omega, ?_, by omega⟩
        rw [List.getD_eq_getElem?_getD, ← List.get?_eq_getElem?, hq]
        simp
        omega
    · rw [if_neg hsc]
      have := bsLoop_correct arr s.count r.toNat hmono (s.count + 1) 0
        ((s.count : Int) - 1) (by omega) (by omega) (by omega)
        (fun p hp hval => by constructor <;> omega)
      rcases this with ⟨p, hp, hval, hres⟩ | ⟨hnone, hres⟩
      · exact Or.inl ⟨p, hp, by omega, hres⟩
      · refine Or.inr ⟨?_, hres⟩
        intro p hp
        have := hnone p hp
        omega

/-- A filtered store for the C7 witness: view `[1, 3]`, count 2, rawCount 4. -/
def c7St : LState := { sampleSt with indices := some [1, 3, 0, 0], count := 2 }

/-- Witness for C7: on the ascending view `[1, 3]`, looking up raw index 3
finds it (at logical position 1, as the disjunction's left branch). -/
theorem c7_indexOfRawIndex_spec_witness :
    (∃ p : Nat, p < c7St.count ∧ ((([1, 3, 0, 0] : List Nat).getD p 0 : Int) = 3)
        ∧ indexOfRawIndex c7St 3 = (p : Int))
    ∨ ((∀ p : Nat, p < c7St.count → ((([1, 3, 0, 0] : List Nat).getD p 0 : Int) ≠ 3))
        ∧ indexOfRawIndex c7St 3 = -1) :=
  (c7_indexOfRawIndex_spec c7St 3).2.2 [1, 3, 0, 0] (by decide) (by decide) rfl
    (by decide) (by decide)

end EList
